import Mathlib

/-!
Verification development for the forecast scoring and reward aggregation
engine.  The Python sources `synth/validator/moving_average.py` and
`synth/miner/price_simulation.py` are embedded shallowly below:

* timestamps are modelled as `ℤ` (epoch seconds),
* float scores are modelled as `ℚ` in the dataframe pipeline (the code uses
  IEEE doubles; all claims checked here are about exact data flow, not
  rounding), and as `ℝ` inside the softmax, where `Real.exp` appears,
* `None`/`NaN` cells are modelled as `Option`,
* the float value `inf` used as the rolling-average sentinel is modelled by
  `none` in an `Option ℚ`,
* pandas dataframes are modelled as lists of structures, one structure field
  per column actually read or written by the translated code.
-/

/-- A score-detail cell: the fields of `score_details_v3` that the pipeline
reads. -/
structure ScoreDetail where
  percentile90 : ℚ
  lowest_score : ℚ
deriving DecidableEq, Repr

/-- One input row of `prepare_df_for_moving_average`: the columns of the
score dataframe that the function reads. -/
structure RowIn where
  miner_id : ℕ
  scored_time : ℤ
  start_time : ℤ
  prompt_score_v3 : Option ℚ
  score_details_v3 : Option ScoreDetail
  asset : Option String
deriving DecidableEq, Repr

/-- A row of the intermediate `full` dataframe built by the cartesian-product
merge in `prepare_df_for_moving_average` (step 3–4): the grid cell keys, the
left-joined data columns, and the joined `miner_min` column. -/
structure RowFull where
  miner_id : ℕ
  scored_time : ℤ
  prompt_score_v3 : Option ℚ
  score_details_v3 : Option ScoreDetail
  asset : Option String
  miner_min : ℤ
deriving DecidableEq, Repr

/-- One output row of `prepare_df_for_moving_average` (the `out` projection
of step 6), which is also one input row of `compute_smoothed_score`. -/
structure RowOut where
  scored_time : ℤ
  miner_id : ℕ
  prompt_score_v3 : Option ℚ
  score_details_v3 : Option ScoreDetail
  asset : Option String
deriving DecidableEq, Repr

/-! ### Generic stable insertion sort

`pandas.DataFrame.sort_values` is a stable ascending sort; we embed it with a
stable insertion sort (`foldl` over the input, inserting each element after
all already-placed elements that compare `≤` to it). -/

/-- Insert `x` into `l` after every element `y` with `le y x = true`. -/
def insortBy (le : α → α → Bool) (x : α) : List α → List α
  | [] => [x]
  | y :: ys => if le y x then y :: insortBy le x ys else x :: y :: ys

/-- Stable insertion sort by the boolean relation `le`. -/
def sortByB (le : α → α → Bool) (l : List α) : List α :=
  l.foldl (fun acc x => insortBy le x acc) []

/-! ### `prepare_df_for_moving_average` (moving_average.py lines 15–106) -/

/-- Start of the hard-coded black-out interval
(`2025-11-18 11:53:00+00:00`, as epoch seconds). -/
def excludeStart : ℤ := 1763466780

/-- End of the hard-coded black-out interval
(`2025-11-18 14:08:00+00:00`, as epoch seconds). -/
def excludeEnd : ℤ := 1763474880

/-- Step 0: `df = df.loc[~mask_exclude]` — discard rows whose `start_time`
falls inside the black-out interval. -/
def survive (df : List RowIn) : List RowIn :=
  df.filter fun r =>
    decide (¬(excludeStart ≤ r.start_time ∧ r.start_time ≤ excludeEnd))

/-- `global_min = df["scored_time"].min()`; only meaningful when the
surviving dataframe is non-empty (pandas returns `NaT` on an empty frame). -/
def globalMin (df : List RowIn) : ℤ :=
  ((df.map (·.scored_time)).min?).getD 0

/-- `all_times = sorted(df["scored_time"].unique())`. -/
def sortedTimes (df : List RowIn) : List ℤ :=
  sortByB (fun a b => decide (a ≤ b)) ((df.map (·.scored_time)).dedup)

/-- `df.loc[df["scored_time"] == t].iloc[0]` — the representative record at
time `t` (first row of the surviving dataframe with that scored time). -/
def rep (df : List RowIn) (t : ℤ) : Option RowIn :=
  df.find? fun r => decide (r.scored_time = t)

/-- `global_worst_score_mapping[t]`, defined when the representative record
at `t` has a non-null `score_details_v3`:
`details["percentile90"] - details["lowest_score"]`. -/
def worstMap (df : List RowIn) (t : ℤ) : Option ℚ :=
  (rep df t).bind fun r =>
    r.score_details_v3.map fun d => d.percentile90 - d.lowest_score

/-- `global_score_details_mapping[t]`. -/
def detailsMap (df : List RowIn) (t : ℤ) : Option ScoreDetail :=
  (rep df t).bind (·.score_details_v3)

/-- `global_score_asset_mapping[t]` (only populated for times whose
representative has a non-null `score_details_v3`). -/
def assetMap (df : List RowIn) (t : ℤ) : Option String :=
  (rep df t).bind fun r =>
    match r.score_details_v3 with
    | some _ => r.asset
    | none => none

/-- `miner_first`: `df.groupby("miner_id")["scored_time"].min()` for one
miner; only queried for miners that occur in `df`. -/
def minerFirst (df : List RowIn) (p : ℕ) : ℤ :=
  (((df.filter fun r => decide (r.miner_id = p)).map (·.scored_time)).min?).getD 0

/-- `miners = df[["miner_id"]].drop_duplicates()` (distinct miner ids). -/
def minersOf (df : List RowIn) : List ℕ :=
  (df.map (·.miner_id)).dedup

/-- Step 3: the full cartesian product `miner_id × all_times`. -/
def gridOf (df : List RowIn) : List (ℕ × ℤ) :=
  (minersOf df).product (sortedTimes df)

/-- The rows produced for one grid cell by the left merge of step 4: the
matching real rows, or, if there is none, a single all-null row.  The merge
with `miner_first` (unique key `miner_id`) is folded into the `miner_min`
field. -/
def cellExpand (df : List RowIn) (c : ℕ × ℤ) : List RowFull :=
  match df.filter (fun r => decide (r.miner_id = c.1 ∧ r.scored_time = c.2)) with
  | [] => [⟨c.1, c.2, none, none, none, minerFirst df c.1⟩]
  | ms => ms.map fun r =>
      ⟨c.1, c.2, r.prompt_score_v3, r.score_details_v3, r.asset, minerFirst df c.1⟩

/-- Step 4: `full = full.merge(df, how="left").merge(miner_first)`. -/
def leftMerge (df : List RowIn) : List RowFull :=
  (gridOf df).flatMap (cellExpand df)

/-- The effect of step 5a on one row: for a new miner
(`miner_min > global_min`), a missing score is filled from the global-worst
mapping (`fillna`); a present score is kept. -/
def bfScoreRow (df : List RowIn) (fr : RowFull) : RowFull :=
  if globalMin df < fr.miner_min then
    { fr with prompt_score_v3 :=
        match fr.prompt_score_v3 with
        | some s => some s
        | none => worstMap df fr.scored_time }
  else fr

/-- Step 5a: `full.loc[is_new, "prompt_score_v3"] = ....fillna(map)` —
backfill the missing scores of new miners from the global-worst mapping. -/
def backfillScore (df : List RowIn) (l : List RowFull) : List RowFull :=
  l.map (bfScoreRow df)

/-- The effect of step 5b on one row: for a new miner, the detail column is
overwritten with the mapping value (null when the time is absent from the
mapping), whether or not the row carried a real record. -/
def bfDetailsRow (df : List RowIn) (fr : RowFull) : RowFull :=
  if globalMin df < fr.miner_min then
    { fr with score_details_v3 := detailsMap df fr.scored_time }
  else fr

/-- Step 5b: `full.loc[is_new, "score_details_v3"] = map(...)` — overwrite
the detail column of every new-miner row with the mapping value (or null
when the time is absent from the mapping). -/
def backfillDetails (df : List RowIn) (l : List RowFull) : List RowFull :=
  l.map (bfDetailsRow df)

/-- The effect of step 5c on one row: for a new miner, the asset column is
overwritten with the mapping value. -/
def bfAssetRow (df : List RowIn) (fr : RowFull) : RowFull :=
  if globalMin df < fr.miner_min then
    { fr with asset := assetMap df fr.scored_time }
  else fr

/-- Step 5c: `full.loc[is_new, "asset"] = map(...)` — overwrite the asset
column of every new-miner row with the mapping value. -/
def backfillAsset (df : List RowIn) (l : List RowFull) : List RowFull :=
  l.map (bfAssetRow df)

/-- Step 6 drop mask: keep a row unless it belongs to an established miner
(`miner_min == global_min`) and both its score and detail cells are null. -/
def dropOld (df : List RowIn) (l : List RowFull) : List RowFull :=
  l.filter fun fr =>
    decide (¬(fr.miner_min = globalMin df ∧ fr.prompt_score_v3 = none ∧
      fr.score_details_v3 = none))

/-- Step 6 projection to the output columns. -/
def project (l : List RowFull) : List RowOut :=
  l.map fun fr =>
    ⟨fr.scored_time, fr.miner_id, fr.prompt_score_v3, fr.score_details_v3, fr.asset⟩

/-- Ascending lexicographic comparison on `(scored_time, miner_id)`. -/
def rowLe (a b : RowOut) : Bool :=
  decide (a.scored_time < b.scored_time ∨
    (a.scored_time = b.scored_time ∧ a.miner_id ≤ b.miner_id))

/-- Step 7: `out.sort_values(["scored_time", "miner_id"])`. -/
def sortOut (l : List RowOut) : List RowOut :=
  sortByB rowLe l

/-- The dense score grid before the final sort (steps 0–6). -/
def gridRows (df : List RowIn) : List RowOut :=
  let d := survive df
  project (dropOld d (backfillAsset d (backfillDetails d
    (backfillScore d (leftMerge d)))))

/-- `prepare_df_for_moving_average` (moving_average.py lines 15–106). -/
def prepare_df_for_moving_average (df : List RowIn) : List RowOut :=
  sortOut (gridRows df)

/-! ### `apply_per_asset_coefficients` (moving_average.py lines 109–128)

The dataframe passed to this function has exactly the two columns
`prompt_score_v3` and `asset`, both non-null (it is produced by `.dropna()`),
so it is modelled as a list of `(score, asset)` pairs. -/

/-- The hard-coded per-asset calibration coefficients. -/
def coefTable : List (String × ℚ) :=
  [("BTC", 1.0), ("ETH", 0.6210893136676585),
   ("XAU", 1.4550630831254674), ("SOL", 0.5021491038021751)]

/-- `df.loc[df["asset"] == a, "prompt_score_v3"] *= c`. -/
def multAsset (a : String) (c : ℚ) (l : List (ℚ × String)) : List (ℚ × String) :=
  l.map fun p => if p.2 = a then (p.1 * c, p.2) else p

/-- `len(df.loc[df["asset"] == a])`. -/
def countAsset (a : String) (l : List (ℚ × String)) : ℕ :=
  (l.filter fun p => decide (p.2 = a)).length

/-- The loop of `apply_per_asset_coefficients`: for each `(asset, coef)` of
the coefficient table, rescale the matching rows in place and accumulate
`coef * count` into `sum_coefficients`. -/
def applyFold (l : List (ℚ × String)) : List (ℚ × String) × ℚ :=
  coefTable.foldl
    (fun st ac => (multAsset ac.1 ac.2 st.1, st.2 + ac.2 * (countAsset ac.1 st.1 : ℚ)))
    (l, 0)

/-- `apply_per_asset_coefficients` (moving_average.py lines 109–128):
rescale each known-asset row by its coefficient, then divide every row by
`sum_coefficients` and return the score column.  Note that the code has no
error path: rows with an asset outside the table are left unmultiplied and
are nevertheless divided by `sum_coefficients`. -/
def apply_per_asset_coefficients (l : List (ℚ × String)) : List ℚ :=
  let st := applyFold l
  st.1.map fun p => p.1 / st.2

/-! ### `compute_smoothed_score` (moving_average.py lines 131–212) -/

/-- `input_df.groupby("miner_id")` iterates the groups in ascending key
order; this is the sorted list of distinct miner ids. -/
def minersSorted (df : List RowOut) : List ℕ :=
  sortByB (fun a b => decide (a ≤ b)) ((df.map (·.miner_id)).dedup)

/-- The rows of one miner's group, in input order. -/
def groupRows (df : List RowOut) (m : ℕ) : List RowOut :=
  df.filter fun r => decide (r.miner_id = m)

/-- `group_df.sort_values("scored_time")` (stable). -/
def sortTime (l : List RowOut) : List RowOut :=
  sortByB (fun a b => decide (a.scored_time ≤ b.scored_time)) l

/-- The window mask: `scored_time` in the half-open-left interval
`(scored_time_param - window_days, scored_time_param]`, with one day =
86400 seconds (`pd.Timedelta(days=window_days)`). -/
def windowRows (w T : ℤ) (l : List RowOut) : List RowOut :=
  l.filter fun r => decide (T - w * 86400 < r.scored_time ∧ r.scored_time ≤ T)

/-- `window_df[["prompt_score_v3", "asset"]].dropna()` — keep the rows whose
score and asset are both non-null, projected to those two columns. -/
def validRows (l : List RowOut) : List (ℚ × String) :=
  l.filterMap fun r =>
    match r.prompt_score_v3, r.asset with
    | some s, some a => some (s, a)
    | _, _ => none

/-- The rolling average of one miner (`none` models the sentinel
`float("inf")` assigned when the miner has no valid scores in the window). -/
def rollingOf (df : List RowOut) (w T : ℤ) (m : ℕ) : Option ℚ :=
  match apply_per_asset_coefficients
      (validRows (windowRows w T (sortTime (groupRows df m)))) with
  | [] => none
  | s :: ss => some ((s :: ss).sum)

/-- `rolling_avg_data`: one `(miner_id, rolling_avg)` entry per group. -/
def rollingAvgData (df : List RowOut) (w T : ℤ) : List (ℕ × Option ℚ) :=
  (minersSorted df).map fun m => (m, rollingOf df w T m)

/-- An entry of `moving_averages_data`: miner id, the miner UID resolved by
the external identity resolver (possibly null), and the rolling average. -/
structure MinerAvg where
  miner_id : ℕ
  miner_uid : Option ℕ
  rolling_avg : Option ℚ
deriving DecidableEq, Repr

/-- Modelled from the spec: `populate_miner_uid_in_miner_data` of the
`MinerDataHandler` collaborator (not under src/) resolves each
`miner_id` to an external UID via the identity-resolver interface
`resolve_external_id(participant_id) → external_id | null`; the resolver is
passed in here as the function `uid`. -/
def populateUid (uid : ℕ → Option ℕ) (l : List (ℕ × Option ℚ)) : List MinerAvg :=
  l.map fun p => ⟨p.1, uid p.1, p.2⟩

/-- `filtered_moving_averages_data`: the entries whose UID is not null. -/
def filteredData (uid : ℕ → Option ℕ) (df : List RowOut) (w T : ℤ) :
    List MinerAvg :=
  (populateUid uid (rollingAvgData df w T)).filter fun e => e.miner_uid.isSome

/-- The logit of one finite rolling average: `-beta * score`. -/
def logitOf (beta : ℝ) (x : ℚ) : ℝ := -beta * (x : ℝ)

/-- The subtracted maximum logit, over the non-empty list `f :: fs` of
finite rolling averages. -/
noncomputable def softmaxM (beta : ℝ) (f : ℚ) (fs : List ℚ) : ℝ :=
  ((f :: fs).map (logitOf beta)).foldr max (logitOf beta f)

/-- The softmax denominator: the sum of the shifted exponentials over the
finite entries. -/
noncomputable def softmaxDenom (beta : ℝ) (f : ℚ) (fs : List ℚ) : ℝ :=
  ((f :: fs).map fun x => Real.exp (logitOf beta x - softmaxM beta f fs)).sum

/-- The weight of one entry: an infinite rolling average (`none`) gets
exactly 0; a finite one gets its shifted exponential over the denominator. -/
noncomputable def stableWeight (beta : ℝ) (f : ℚ) (fs : List ℚ) :
    Option ℚ → ℝ
  | none => 0
  | some x => Real.exp (logitOf beta x - softmaxM beta f fs) / softmaxDenom beta f fs

/-- Modelled from the spec: `compute_softmax` of `synth/validator/reward.py`
(not under src/).  Per the spec, the softmax is computed over the negated
rolling averages scaled by `beta`
(`w_i = exp(-beta * score_i) / Σ_j exp(-beta * score_j)`), using the
numerically stable max-subtraction so that entries with
`rolling_avg = infinity` (modelled by `none`) yield exactly weight 0 rather
than NaN.  When every entry is infinite there is no finite logit and every
weight is 0. -/
noncomputable def compute_softmax (xs : List (Option ℚ)) (beta : ℝ) : List ℝ :=
  match xs.filterMap id with
  | [] => xs.map fun _ => 0
  | f :: fs => xs.map (stableWeight beta f fs)

/-- One emitted reward record. -/
structure RewardRecord where
  miner_id : ℕ
  miner_uid : Option ℕ
  smoothed_score : Option ℚ
  reward_weight : ℝ
  updated_at : ℤ

/-- The softmax weights, elementwise-paired with `filteredData`. -/
noncomputable def weightsOf (uid : ℕ → Option ℕ) (df : List RowOut) (w T : ℤ) (beta : ℝ) :
    List ℝ :=
  compute_softmax ((filteredData uid df w T).map (·.rolling_avg)) beta

/-- The emitted reward table: zip the filtered data with the weights and
keep only the records with `reward_weight > 0`. -/
noncomputable def rewardsOf (uid : ℕ → Option ℕ) (df : List RowOut) (w T : ℤ) (beta : ℝ) :
    List RewardRecord :=
  ((filteredData uid df w T).zip (weightsOf uid df w T beta)).filterMap
    fun p =>
      if 0 < p.2 then
        some ⟨p.1.miner_id, p.1.miner_uid, p.1.rolling_avg, p.2, T⟩
      else none

/-- `compute_smoothed_score` (moving_average.py lines 131–212).  The miner
data handler is abstracted by the UID resolver `uid`; `w` is `window_days`
and `T` is `scored_time`.  An empty input dataframe returns `none`
(Python `None`). -/
noncomputable def compute_smoothed_score (uid : ℕ → Option ℕ) (input_df : List RowOut)
    (w T : ℤ) (beta : ℝ) : Option (List RewardRecord) :=
  match input_df with
  | [] => none
  | _ => some (rewardsOf uid input_df w T beta)

/-! ### `price_simulation.py` (lines 48–84)

The normal draws `np.random.normal(0, sigma * sqrt(dt), size=num_steps)` are
the only randomness; they are passed in explicitly as `draws` (the already
scaled percentage changes), making each simulation a pure function of its
inputs and its random source. -/

/-- `simulate_single_price_path` (price_simulation.py lines 48–63):
`num_steps = int(time_length / time_increment)` percentage changes,
`cumprod(1 + pcts)` with `1.0` inserted at the front, scaled by
`current_price`. -/
noncomputable def simulate_single_price_path (current_price : ℝ)
    (time_increment time_length : ℕ) (sigma : ℝ) (draws : ℕ → ℝ) : List ℝ :=
  let num_steps := time_length / time_increment
  let price_change_pcts := (List.range num_steps).map draws
  let cumulative_returns := (price_change_pcts.map fun r => 1 + r).scanl (· * ·) 1
  cumulative_returns.map fun c => current_price * c

/-- `simulate_crypto_price_paths` (price_simulation.py lines 66–84): one
independent draw family per path. -/
noncomputable def simulate_crypto_price_paths (current_price : ℝ)
    (time_increment time_length num_simulations : ℕ) (sigma : ℝ)
    (draws : ℕ → ℕ → ℝ) : List (List ℝ) :=
  (List.range num_simulations).map fun i =>
    simulate_single_price_path current_price time_increment time_length sigma
      (draws i)

/-! ## Generic list lemmas -/

theorem insortBy_perm (le : α → α → Bool) (x : α) (l : List α) :
    (insortBy le x l).Perm (x :: l) := by
  induction l with
  | nil => simp [insortBy]
  | cons y ys ih =>
    simp only [insortBy]
    split
    · exact (ih.cons y).trans (List.Perm.swap x y ys)
    · exact List.Perm.refl _

theorem foldl_insort_perm (le : α → α → Bool) (l acc : List α) :
    (l.foldl (fun a x => insortBy le x a) acc).Perm (acc ++ l) := by
  induction l generalizing acc with
  | nil => simp
  | cons x xs ih =>
    simp only [List.foldl_cons]
    refine (ih (insortBy le x acc)).trans ?_
    have h1 : (insortBy le x acc ++ xs).Perm ((x :: acc) ++ xs) :=
      (insortBy_perm le x acc).append_right xs
    exact h1.trans List.perm_middle.symm

theorem sortByB_perm (le : α → α → Bool) (l : List α) :
    (sortByB le l).Perm l := by
  simpa [sortByB] using foldl_insort_perm le l []

theorem foldl_min_le_self (as : List ℤ) (a : ℤ) : as.foldl min a ≤ a := by
  induction as generalizing a with
  | nil => simp
  | cons c cs ih => exact le_trans (ih (min a c)) (min_le_left a c)

theorem foldl_min_le_mem {as : List ℤ} {x : ℤ} (hx : x ∈ as) (a : ℤ) :
    as.foldl min a ≤ x := by
  induction as generalizing a with
  | nil => cases hx
  | cons c cs ih =>
    rcases List.mem_cons.mp hx with h | h
    · subst h
      exact le_trans (foldl_min_le_self cs (min a x)) (min_le_right a x)
    · exact ih h (min a c)

theorem min?_le_of_mem {l : List ℤ} {x : ℤ} (hx : x ∈ l) :
    (l.min?).getD 0 ≤ x := by
  cases l with
  | nil => cases hx
  | cons a as =>
    rw [List.min?_cons', Option.getD_some]
    rcases List.mem_cons.mp hx with h | h
    · subst h; exact foldl_min_le_self as x
    · exact foldl_min_le_mem h a

/-- Summing a function over a list of options equals summing the
corresponding function over the present values, when absent entries
contribute 0. -/
theorem sum_map_option {M : Type*} [AddCommMonoid M] (xs : List (Option ℚ))
    (f0 : Option ℚ → M) (g : ℚ → M) (h0 : f0 none = 0)
    (hs : ∀ x, f0 (some x) = g x) :
    (xs.map f0).sum = ((xs.filterMap id).map g).sum := by
  induction xs with
  | nil => simp
  | cons o os ih =>
    cases o with
    | none => simpa [h0] using ih
    | some x => simp [hs, ih]

/-! ## Softmax lemmas -/

theorem softmaxDenom_pos (beta : ℝ) (f : ℚ) (fs : List ℚ) :
    0 < softmaxDenom beta f fs := by
  apply List.sum_pos
  · intro x hx
    rcases List.mem_map.mp hx with ⟨y, _, rfl⟩
    exact Real.exp_pos _
  · simp [softmaxDenom]

theorem stableWeight_nonneg (beta : ℝ) (f : ℚ) (fs : List ℚ) (o : Option ℚ) :
    0 ≤ stableWeight beta f fs o := by
  cases o with
  | none => exact le_refl 0
  | some x =>
    exact le_of_lt (div_pos (Real.exp_pos _) (softmaxDenom_pos beta f fs))

theorem stableWeight_pos (beta : ℝ) (f : ℚ) (fs : List ℚ) (x : ℚ) :
    0 < stableWeight beta f fs (some x) :=
  div_pos (Real.exp_pos _) (softmaxDenom_pos beta f fs)

theorem stableWeight_le_one (beta : ℝ) (f : ℚ) (fs : List ℚ) {x : ℚ}
    (hx : x ∈ f :: fs) : stableWeight beta f fs (some x) ≤ 1 := by
  rw [stableWeight, div_le_one (softmaxDenom_pos beta f fs)]
  refine List.single_le_sum ?_ _ ?_
  · intro y hy
    rcases List.mem_map.mp hy with ⟨z, _, rfl⟩
    exact le_of_lt (Real.exp_pos _)
  · exact List.mem_map.mpr ⟨x, hx, rfl⟩

theorem compute_softmax_eq_zero {xs : List (Option ℚ)} (beta : ℝ)
    (h : xs.filterMap id = []) :
    compute_softmax xs beta = xs.map fun _ => 0 := by
  unfold compute_softmax
  rw [h]

theorem compute_softmax_eq_map {xs : List (Option ℚ)} (beta : ℝ) {f : ℚ}
    {fs : List ℚ} (h : xs.filterMap id = f :: fs) :
    compute_softmax xs beta = xs.map (stableWeight beta f fs) := by
  unfold compute_softmax
  rw [h]

theorem compute_softmax_sum {xs : List (Option ℚ)} (beta : ℝ) {f : ℚ}
    {fs : List ℚ} (h : xs.filterMap id = f :: fs) :
    (compute_softmax xs beta).sum = 1 := by
  rw [compute_softmax_eq_map beta h]
  rw [sum_map_option xs _
    (fun x => Real.exp (logitOf beta x - softmaxM beta f fs) / softmaxDenom beta f fs)
    rfl (fun _ => rfl), h]
  have h2 : ((f :: fs).map
      (fun x => Real.exp (logitOf beta x - softmaxM beta f fs) / softmaxDenom beta f fs)) =
      ((f :: fs).map
      (fun x => Real.exp (logitOf beta x - softmaxM beta f fs) * (softmaxDenom beta f fs)⁻¹)) := by
    simp [div_eq_mul_inv]
  rw [h2, List.sum_map_mul_right]
  exact mul_inv_cancel₀ (ne_of_gt (softmaxDenom_pos beta f fs))

theorem compute_softmax_nonneg (xs : List (Option ℚ)) (beta : ℝ) :
    ∀ w ∈ compute_softmax xs beta, 0 ≤ w := by
  intro w hw
  rcases hfm : xs.filterMap id with _ | ⟨f, fs⟩
  · rw [compute_softmax_eq_zero beta hfm] at hw
    rcases List.mem_map.mp hw with ⟨o, _, rfl⟩
    exact le_refl 0
  · rw [compute_softmax_eq_map beta hfm] at hw
    rcases List.mem_map.mp hw with ⟨o, _, rfl⟩
    exact stableWeight_nonneg beta f fs o

theorem compute_softmax_length (xs : List (Option ℚ)) (beta : ℝ) :
    (compute_softmax xs beta).length = xs.length := by
  rcases hfm : xs.filterMap id with _ | ⟨f, fs⟩
  · rw [compute_softmax_eq_zero beta hfm, List.length_map]
  · rw [compute_softmax_eq_map beta hfm, List.length_map]

theorem compute_softmax_none {xs : List (Option ℚ)} (beta : ℝ) {i : ℕ}
    (h : xs[i]? = some none) : (compute_softmax xs beta)[i]? = some 0 := by
  rcases hfm : xs.filterMap id with _ | ⟨f, fs⟩
  · rw [compute_softmax_eq_zero beta hfm, List.getElem?_map, h, Option.map_some']
  · rw [compute_softmax_eq_map beta hfm, List.getElem?_map, h, Option.map_some']
    rfl

/-! ## Emission lemmas for the reward table -/

theorem compute_smoothed_some (uid : ℕ → Option ℕ) {df : List RowOut}
    (hne : df ≠ []) (w T : ℤ) (beta : ℝ) :
    compute_smoothed_score uid df w T beta = some (rewardsOf uid df w T beta) := by
  cases df with
  | nil => exact absurd rfl hne
  | cons r rs => rfl

theorem rewardsOf_eq_filterMap (uid : ℕ → Option ℕ) (df : List RowOut)
    (w T : ℤ) (beta : ℝ) {f : ℚ} {fs : List ℚ}
    (hfm : (((filteredData uid df w T).map (·.rolling_avg)).filterMap id) = f :: fs) :
    rewardsOf uid df w T beta = (filteredData uid df w T).filterMap
      (fun e => if 0 < stableWeight beta f fs e.rolling_avg then
          some ⟨e.miner_id, e.miner_uid, e.rolling_avg,
            stableWeight beta f fs e.rolling_avg, T⟩
        else none) := by
  unfold rewardsOf weightsOf
  rw [compute_softmax_eq_map beta hfm, List.map_map]
  have hz := List.zip_map' id
    (stableWeight beta f fs ∘ fun e : MinerAvg => e.rolling_avg)
    (filteredData uid df w T)
  rw [List.map_id] at hz
  rw [hz, List.filterMap_map]
  rfl

theorem sum_weight_filterMap (l : List MinerAvg) (g : MinerAvg → ℝ) (T : ℤ)
    (hg : ∀ e ∈ l, 0 ≤ g e) :
    (((l.filterMap fun e => if 0 < g e then
        some (⟨e.miner_id, e.miner_uid, e.rolling_avg, g e, T⟩ : RewardRecord)
      else none)).map (·.reward_weight)).sum = (l.map g).sum := by
  induction l with
  | nil => simp
  | cons a as ih =>
    have ha := hg a (List.mem_cons_self a as)
    have has : ∀ e ∈ as, 0 ≤ g e := fun e he => hg e (List.mem_cons_of_mem a he)
    by_cases hpos : 0 < g a
    · simp only [List.filterMap_cons, if_pos hpos, List.map_cons, List.sum_cons]
      rw [ih has]
    · have hz : g a = 0 := le_antisymm (not_lt.mp hpos) ha
      simp only [List.filterMap_cons, if_neg hpos]
      rw [ih has, List.map_cons, List.sum_cons, hz, zero_add]

theorem mem_rewards_of_filterMap {l : List MinerAvg} {g : MinerAvg → ℝ} {T : ℤ}
    {r : RewardRecord}
    (hr : r ∈ l.filterMap fun e => if 0 < g e then
        some (⟨e.miner_id, e.miner_uid, e.rolling_avg, g e, T⟩ : RewardRecord)
      else none) :
    ∃ e ∈ l, 0 < g e ∧
      r = ⟨e.miner_id, e.miner_uid, e.rolling_avg, g e, T⟩ := by
  rcases List.mem_filterMap.mp hr with ⟨e, he, hfe⟩
  by_cases hpos : 0 < g e
  · rw [if_pos hpos] at hfe
    exact ⟨e, he, hpos, (Option.some_inj.mp hfe).symm⟩
  · rw [if_neg hpos] at hfe
    cases hfe

theorem filterMap_rolling_ne_nil {fd : List MinerAvg}
    (hfin : ∃ e ∈ fd, e.rolling_avg ≠ none) :
    ∃ f fs, ((fd.map (·.rolling_avg)).filterMap id) = f :: fs := by
  rcases hfin with ⟨e, he, hne⟩
  rcases Option.ne_none_iff_exists'.mp hne with ⟨x, hx⟩
  have hmem : x ∈ (fd.map (·.rolling_avg)).filterMap id :=
    List.mem_filterMap.mpr ⟨some x, List.mem_map.mpr ⟨e, he, hx⟩, rfl⟩
  rcases hfm : (fd.map (·.rolling_avg)).filterMap id with _ | ⟨f, fs⟩
  · rw [hfm] at hmem
    cases hmem
  · exact ⟨f, fs, hfm⟩

theorem rewardsOf_eq_nil (uid : ℕ → Option ℕ) (df : List RowOut) (w T : ℤ)
    (beta : ℝ)
    (h : ((filteredData uid df w T).map (·.rolling_avg)).filterMap id = []) :
    rewardsOf uid df w T beta = [] := by
  unfold rewardsOf weightsOf
  rw [compute_softmax_eq_zero beta h]
  rw [List.filterMap_eq_nil_iff]
  intro p hp
  obtain ⟨e, z⟩ := p
  have h2 := (List.of_mem_zip hp).2
  rcases List.mem_map.mp h2 with ⟨o, _, hfa⟩
  rw [if_neg]
  rw [← hfa]
  exact lt_irrefl 0

/-- **C1** (amended).  On a non-empty input grid with `softmax_beta > 0`,
provided at least one UID-resolvable participant has a finite rolling
average: every emitted reward record has `reward_weight` in `(0, 1]` and a
finite smoothed score (so a participant with infinite rolling average is
absent from the emitted list), the emitted weights sum to exactly 1 (hence
to 1 within `1e-9`), and the softmax assigns weight exactly 0 to every
infinite rolling average. -/
theorem c1_softmax_normalization_amended (uid : ℕ → Option ℕ)
    (df : List RowOut) (w T : ℤ) (beta : ℝ) (hne : df ≠ []) (hβ : 0 < beta)
    (hfin : ∃ e ∈ filteredData uid df w T, e.rolling_avg ≠ none) :
    ∃ l, compute_smoothed_score uid df w T beta = some l ∧
      (∀ rec ∈ l, 0 < rec.reward_weight ∧ rec.reward_weight ≤ 1 ∧
        rec.smoothed_score ≠ none) ∧
      (l.map (·.reward_weight)).sum = 1 ∧
      |(l.map (·.reward_weight)).sum - 1| ≤ 1 / 1000000000 ∧
      (∀ i : ℕ, ((filteredData uid df w T).map (·.rolling_avg))[i]? = some none →
        (weightsOf uid df w T beta)[i]? = some 0) := by
  obtain ⟨f, fs, hfm⟩ := filterMap_rolling_ne_nil hfin
  have hsum : ((rewardsOf uid df w T beta).map (·.reward_weight)).sum = 1 := by
    rw [rewardsOf_eq_filterMap uid df w T beta hfm]
    rw [sum_weight_filterMap _ _ _
      (fun e _ => stableWeight_nonneg beta f fs e.rolling_avg)]
    have h2 : (filteredData uid df w T).map
        (fun e => stableWeight beta f fs e.rolling_avg) =
        compute_softmax ((filteredData uid df w T).map (·.rolling_avg)) beta := by
      rw [compute_softmax_eq_map beta hfm, List.map_map]
      rfl
    rw [h2]
    exact compute_softmax_sum beta hfm
  refine ⟨rewardsOf uid df w T beta, compute_smoothed_some uid hne w T beta,
    ?_, hsum, by rw [hsum]; norm_num, ?_⟩
  · intro rec hrec
    rw [rewardsOf_eq_filterMap uid df w T beta hfm] at hrec
    obtain ⟨e, he, hpos, rfl⟩ := mem_rewards_of_filterMap hrec
    refine ⟨hpos, ?_, ?_⟩
    · show stableWeight beta f fs e.rolling_avg ≤ 1
      cases hcase : e.rolling_avg with
      | none =>
        rw [hcase] at hpos
        exact absurd hpos (by simp [stableWeight])
      | some x =>
        apply stableWeight_le_one
        rw [← hfm]
        exact List.mem_filterMap.mpr ⟨some x, List.mem_map.mpr ⟨e, he, hcase⟩, rfl⟩
    · show e.rolling_avg ≠ none
      cases hcase : e.rolling_avg with
      | none =>
        rw [hcase] at hpos
        simp [stableWeight] at hpos
      | some x => simp [hcase]
  · intro i hi
    exact compute_softmax_none beta hi

/-! ## Concrete inputs for counterexamples and witnesses -/

/-- A UID resolver that resolves every miner to its own id. -/
def uidAll : ℕ → Option ℕ := fun m => some m

/-- A one-row grid whose only observation lies outside the scoring window
relative to `scored_time = 1000000`, `window_days = 10`. -/
def dfInf : List RowOut := [⟨0, 1, some (1/2), none, some "BTC"⟩]

/-- A one-row grid whose observation lies inside the window. -/
def dfFin : List RowOut := [⟨100, 1, some (1/2), none, some "BTC"⟩]

/-- **C1** counterexample.  `dfInf` is a non-empty input grid and
`softmax_beta = 1 > 0`, yet the only participant's rolling average is
infinite, the emitted reward list is empty, and the emitted weights sum to
0, not to 1 within `1e-9`. -/
theorem c1_counterexample :
    compute_smoothed_score uidAll dfInf 10 1000000 1 = some [] ∧
    ¬|((([] : List RewardRecord).map (·.reward_weight)).sum) - 1| ≤ 1 / 1000000000 := by
  constructor
  · rw [compute_smoothed_some uidAll (by decide) 10 1000000 1,
      rewardsOf_eq_nil uidAll dfInf 10 1000000 1 (by decide)]
  · norm_num

/-- Witness for C1: the hypotheses of the amended theorem hold at
`dfFin`, `window_days = 10`, `scored_time = 100`, `beta = 1`. -/
theorem c1_witness :
    dfFin ≠ [] ∧ (0:ℝ) < 1 ∧
    (∃ e ∈ filteredData uidAll dfFin 10 100, e.rolling_avg ≠ none) ∧
    (∃ l, compute_smoothed_score uidAll dfFin 10 100 1 = some l ∧
      (∀ rec ∈ l, 0 < rec.reward_weight ∧ rec.reward_weight ≤ 1 ∧
        rec.smoothed_score ≠ none) ∧
      (l.map (·.reward_weight)).sum = 1 ∧
      |(l.map (·.reward_weight)).sum - 1| ≤ 1 / 1000000000 ∧
      (∀ i : ℕ, ((filteredData uidAll dfFin 10 100).map (·.rolling_avg))[i]? = some none →
        (weightsOf uidAll dfFin 10 100 1)[i]? = some 0)) :=
  ⟨by decide, by norm_num, by decide,
    c1_softmax_normalization_amended uidAll dfFin 10 100 1 (by decide)
      (by norm_num) (by decide)⟩

/-- **C3** counterexample.  On an empty batch `compute_smoothed_score`
returns Python `None` (modelled `none`), which is not an empty reward
list. -/
theorem c3_counterexample :
    compute_smoothed_score uidAll [] 10 0 1 = none ∧
    compute_smoothed_score uidAll [] 10 0 1 ≠ some [] := by
  constructor
  · rfl
  · simp [compute_smoothed_score]

/-- **C3** (amended).  For every epoch whose batch contains no score
records, `compute_smoothed_score` returns `None` (no reward list at all,
rather than an empty list); the caller must treat `None` as "skip weight
submission". -/
theorem c3_empty_batch_returns_none (uid : ℕ → Option ℕ) (w T : ℤ)
    (beta : ℝ) : compute_smoothed_score uid [] w T beta = none := rfl

/-! ## The C5 scenario -/

/-- The scenario batch: `{(p1, BTC, t1, 0.5), (p1, BTC, t2, 0.3),
(p2, BTC, t1, 0.4)}` with `t1 = 100`, `t2 = 200` (both inside the 10-day
window ending at `scored_time = 200`). -/
def dfScenario : List RowOut :=
  [⟨100, 1, some (1/2), none, some "BTC"⟩,
   ⟨200, 1, some (3/10), none, some "BTC"⟩,
   ⟨100, 2, some (2/5), none, some "BTC"⟩]

theorem scenarioFd : filteredData uidAll dfScenario 10 200 =
    [⟨1, some 1, some (2/5)⟩, ⟨2, some 2, some (2/5)⟩] := by
  simp +decide [filteredData, populateUid, rollingAvgData, minersSorted, dfScenario,
    sortByB, insortBy, List.dedup, List.pwFilter, rollingOf, groupRows, sortTime,
    windowRows, validRows, apply_per_asset_coefficients, applyFold, coefTable,
    multAsset, countAsset, List.filter, List.filterMap, uidAll]
  norm_num

theorem scenarioHfm :
    ((filteredData uidAll dfScenario 10 200).map (·.rolling_avg)).filterMap id
      = (2/5 : ℚ) :: [2/5] := by
  rw [scenarioFd]
  simp [List.filterMap]

theorem scenarioWeight :
    stableWeight 1 (2/5) [2/5] (some (2/5)) = 1/2 := by
  rw [stableWeight]
  rw [show softmaxM 1 (2/5) [2/5] = logitOf 1 (2/5) from by
    simp [softmaxM, max_self]]
  simp [softmaxDenom, softmaxM, max_self, sub_self, Real.exp_zero]
  norm_num

theorem scenarioRewards :
    rewardsOf uidAll dfScenario 10 200 1 =
      [⟨1, some 1, some (2/5), 1/2, 200⟩, ⟨2, some 2, some (2/5), 1/2, 200⟩] := by
  rw [rewardsOf_eq_filterMap uidAll dfScenario 10 200 1 scenarioHfm, scenarioFd]
  simp [List.filterMap, scenarioWeight]

/-- **C5** counterexample.  On the scenario batch both participants are
emitted with reward weight exactly `1/2` each — the weights are equal, so
`reward_weight(p2) > reward_weight(p1)` is false.  (The per-asset
normalization is applied per miner group, so p1's rolling average is
`(0.5 + 0.3)/2 = 0.4` and p2's is `0.4/1 = 0.4`.) -/
theorem c5_counterexample :
    compute_smoothed_score uidAll dfScenario 10 200 1 =
      some [⟨1, some 1, some (2/5), 1/2, 200⟩, ⟨2, some 2, some (2/5), 1/2, 200⟩] ∧
    ¬((1:ℝ)/2 > (1:ℝ)/2) := by
  constructor
  · rw [compute_smoothed_some uidAll (by decide) 10 200 1, scenarioRewards]
  · exact lt_irrefl _

/-- **C5** (amended).  On the scenario batch both p1 and p2 appear in the
output; because `apply_per_asset_coefficients` is applied per miner group
(its normalizer is the coefficient-weighted row count of that miner's own
window rows), p1's rolling average is `0.5/2 + 0.3/2 = 0.4` and p2's is
`0.4/1 = 0.4`, and the reward weights are equal (`1/2` each) rather than
`weight(p2) > weight(p1)`. -/
theorem c5_scenario_amended :
    rollingOf dfScenario 10 200 1 = some (2/5) ∧
    rollingOf dfScenario 10 200 2 = some (2/5) ∧
    compute_smoothed_score uidAll dfScenario 10 200 1 =
      some [⟨1, some 1, some (2/5), 1/2, 200⟩, ⟨2, some 2, some (2/5), 1/2, 200⟩] := by
  refine ⟨?_, ?_, ?_⟩
  · simp +decide [rollingOf, groupRows, sortTime, sortByB, insortBy, windowRows,
      validRows, apply_per_asset_coefficients, applyFold, coefTable, multAsset,
      countAsset, dfScenario, List.filter, List.filterMap]
    norm_num
  · simp +decide [rollingOf, groupRows, sortTime, sortByB, insortBy, windowRows,
      validRows, apply_per_asset_coefficients, applyFold, coefTable, multAsset,
      countAsset, dfScenario, List.filter, List.filterMap]
    norm_num
  · rw [compute_smoothed_some uidAll (by decide) 10 200 1, scenarioRewards]

/-! ## Closed form of `apply_per_asset_coefficients` -/

/-- The effective multiplier of one row: the asset's table coefficient, or 1
for an asset outside the table (the loop never multiplies such a row). -/
def coefMul (a : String) : ℚ :=
  if a = "BTC" then 1.0 else if a = "ETH" then 0.6210893136676585
  else if a = "XAU" then 1.4550630831254674
  else if a = "SOL" then 0.5021491038021751 else 1

/-- `sum_coefficients`: the coefficient-weighted count of the known-asset
rows of the batch (rows with an unknown asset contribute nothing). -/
def sumCoefOf (l : List (ℚ × String)) : ℚ :=
  1.0 * (countAsset "BTC" l : ℚ) + 0.6210893136676585 * (countAsset "ETH" l : ℚ)
  + 1.4550630831254674 * (countAsset "XAU" l : ℚ)
  + 0.5021491038021751 * (countAsset "SOL" l : ℚ)

theorem countAsset_multAsset (a b : String) (c : ℚ) (l : List (ℚ × String)) :
    countAsset a (multAsset b c l) = countAsset a l := by
  unfold countAsset multAsset
  rw [List.filter_map, List.length_map]
  congr 1
  apply List.filter_congr
  intro p _
  by_cases h : p.2 = b <;> simp [h, Function.comp]

theorem applyFold_fst (l : List (ℚ × String)) :
    (applyFold l).1 = l.map fun p => (p.1 * coefMul p.2, p.2) := by
  simp only [applyFold, coefTable, List.foldl_cons, List.foldl_nil]
  simp only [multAsset, List.map_map]
  congr 1
  funext p
  by_cases h1 : p.2 = "BTC"
  · simp +decide [Function.comp, h1, coefMul]
  · by_cases h2 : p.2 = "ETH"
    · simp +decide [Function.comp, h1, h2, coefMul]
    · by_cases h3 : p.2 = "XAU"
      · simp +decide [Function.comp, h1, h2, h3, coefMul]
      · by_cases h4 : p.2 = "SOL"
        · simp +decide [Function.comp, h1, h2, h3, h4, coefMul]
        · simp [Function.comp, h1, h2, h3, h4, coefMul]

theorem applyFold_snd (l : List (ℚ × String)) :
    (applyFold l).2 = sumCoefOf l := by
  simp only [applyFold, coefTable, List.foldl_cons, List.foldl_nil,
    countAsset_multAsset]
  unfold sumCoefOf
  ring

theorem apply_per_asset_coefficients_eq (l : List (ℚ × String)) :
    apply_per_asset_coefficients l =
      l.map fun p => p.1 * coefMul p.2 / sumCoefOf l := by
  show List.map (fun p => p.1 / (applyFold l).2) (applyFold l).1 =
    l.map fun p => p.1 * coefMul p.2 / sumCoefOf l
  rw [applyFold_fst, applyFold_snd, List.map_map]
  rfl

theorem apply_length (l : List (ℚ × String)) :
    (apply_per_asset_coefficients l).length = l.length := by
  rw [apply_per_asset_coefficients_eq, List.length_map]

/-- **C4** counterexample.  A batch containing a row with the unknown asset
`"DOGE"` does not abort: `apply_per_asset_coefficients` returns a full
output in which the unknown-asset row is present, unmultiplied, and divided
by the coefficient-weighted count of the known-asset rows (here 1.0, from
the single BTC row).  No configuration error is raised. -/
theorem c4_counterexample :
    apply_per_asset_coefficients [(1, "BTC"), (2, "DOGE")] = [1, 2] := by
  rw [apply_per_asset_coefficients_eq]
  simp +decide [coefMul, sumCoefOf, countAsset, List.filter]
  norm_num

/-- **C4** (amended).  A row whose asset has no entry in the coefficient
table is silently kept, not rejected: the output has the same length as the
input, and the unknown-asset row's score is not multiplied by any
coefficient but is divided by `sum_coefficients` (the coefficient-weighted
count of the known-asset rows); no error is raised. -/
theorem c4_unknown_asset_amended (l : List (ℚ × String)) (i : ℕ) (s : ℚ)
    (a : String) (hrow : l[i]? = some (s, a))
    (ha : ∀ x ∈ coefTable, x.1 ≠ a) :
    (apply_per_asset_coefficients l).length = l.length ∧
    (apply_per_asset_coefficients l)[i]? = some (s / sumCoefOf l) := by
  have hcm : coefMul a = 1 := by
    have h1 := ha ("BTC", 1.0) (by simp [coefTable])
    have h2 := ha ("ETH", 0.6210893136676585) (by simp [coefTable])
    have h3 := ha ("XAU", 1.4550630831254674) (by simp [coefTable])
    have h4 := ha ("SOL", 0.5021491038021751) (by simp [coefTable])
    simp only at h1 h2 h3 h4
    rw [coefMul, if_neg (fun h => h1 h.symm), if_neg (fun h => h2 h.symm),
      if_neg (fun h => h3 h.symm), if_neg (fun h => h4 h.symm)]
  refine ⟨apply_length l, ?_⟩
  rw [apply_per_asset_coefficients_eq, List.getElem?_map, hrow]
  simp [hcm]

/-- Witness for C4's amended theorem at the concrete batch
`[(1, BTC), (2, DOGE)]`, row index 1. -/
theorem c4_witness :
    ([((1:ℚ), "BTC"), (2, "DOGE")][1]? = some (2, "DOGE")) ∧
    (∀ x ∈ coefTable, x.1 ≠ "DOGE") ∧
    ((apply_per_asset_coefficients [(1, "BTC"), (2, "DOGE")]).length =
      ([((1:ℚ), "BTC"), (2, "DOGE")] : List (ℚ × String)).length ∧
    (apply_per_asset_coefficients [(1, "BTC"), (2, "DOGE")])[1]? =
      some (2 / sumCoefOf [(1, "BTC"), (2, "DOGE")])) :=
  ⟨by norm_num, by decide,
    c4_unknown_asset_amended [(1, "BTC"), (2, "DOGE")] 1 2 "DOGE"
      (by norm_num) (by decide)⟩


/-! ## Grid-cell machinery for prepare_df -/

def keyF (fr : RowFull) : ℕ × ℤ := (fr.miner_id, fr.scored_time)

def keyO (r : RowOut) : ℕ × ℤ := (r.miner_id, r.scored_time)

theorem cellExpand_key (df : List RowIn) (c : ℕ × ℤ) :
    ∀ r ∈ cellExpand df c, keyF r = c := by
  intro r hr
  unfold cellExpand at hr
  rcases hms : df.filter (fun r => decide (r.miner_id = c.1 ∧ r.scored_time = c.2)) with _ | ⟨m, ms⟩
  · rw [hms] at hr
    simp at hr
    rw [hr, keyF]
  · rw [hms] at hr
    simp only [List.mem_map] at hr
    rcases hr with ⟨r0, _, rfl⟩
    rfl

theorem filter_key_flatMap (l : List (ℕ × ℤ)) (f : ℕ × ℤ → List RowFull)
    (hnd : l.Nodup) (hf : ∀ c ∈ l, ∀ r ∈ f c, keyF r = c) (c₀ : ℕ × ℤ) :
    (l.flatMap f).filter (fun r => decide (keyF r = c₀)) =
      if c₀ ∈ l then f c₀ else [] := by
  induction l with
  | nil => simp
  | cons c cs ih =>
    rw [List.flatMap_cons, List.filter_append]
    have hfc : ∀ r ∈ f c, keyF r = c := hf c (List.mem_cons_self c cs)
    have hfcs : ∀ c' ∈ cs, ∀ r ∈ f c', keyF r = c' :=
      fun c' hc' => hf c' (List.mem_cons_of_mem c hc')
    by_cases hc : c₀ = c
    · subst hc
      have h1 : (f c₀).filter (fun r => decide (keyF r = c₀)) = f c₀ :=
        List.filter_eq_self.mpr fun r hr => by simp [hfc r hr]
      have hnotin : c₀ ∉ cs := (List.nodup_cons.mp hnd).1
      have h2 : (cs.flatMap f).filter (fun r => decide (keyF r = c₀)) = [] := by
        rw [ih (List.nodup_cons.mp hnd).2 hfcs, if_neg hnotin]
      rw [h1, h2, List.append_nil, if_pos (List.mem_cons_self c₀ cs)]
    · have h1 : (f c).filter (fun r => decide (keyF r = c₀)) = [] :=
        List.filter_eq_nil_iff.mpr fun r hr => by
          simp [hfc r hr]
          exact fun h => hc h.symm
      rw [h1, List.nil_append, ih (List.nodup_cons.mp hnd).2 hfcs]
      by_cases hcs : c₀ ∈ cs
      · rw [if_pos hcs, if_pos (List.mem_cons_of_mem c hcs)]
      · rw [if_neg hcs, if_neg (by simp [hc, hcs])]

theorem gridOf_nodup (df : List RowIn) : (gridOf df).Nodup := by
  apply List.Nodup.product
  · exact List.nodup_dedup _
  · exact ((sortByB_perm _ _).symm).nodup (List.nodup_dedup _)

theorem filter_key_map_pres {f : RowFull → RowFull}
    (hf : ∀ r, keyF (f r) = keyF r) (l : List RowFull) (c : ℕ × ℤ) :
    (l.map f).filter (fun r => decide (keyF r = c)) =
      (l.filter (fun r => decide (keyF r = c))).map f := by
  rw [List.filter_map]
  congr 1
  apply List.filter_congr
  intro r _
  simp [Function.comp, hf r]

theorem keyF_bfScoreRow (df : List RowIn) (fr : RowFull) :
    keyF (bfScoreRow df fr) = keyF fr := by
  unfold bfScoreRow
  split <;> rfl

theorem keyF_bfDetailsRow (df : List RowIn) (fr : RowFull) :
    keyF (bfDetailsRow df fr) = keyF fr := by
  unfold bfDetailsRow
  split <;> rfl

theorem keyF_bfAssetRow (df : List RowIn) (fr : RowFull) :
    keyF (bfAssetRow df fr) = keyF fr := by
  unfold bfAssetRow
  split <;> rfl

/-- The output rows a single grid cell contributes before the final sort:
the cell's merge rows, backfilled, dropped, and projected. -/
def cellProcessed (d : List RowIn) (c : ℕ × ℤ) : List RowOut :=
  project (dropOld d
    ((((cellExpand d c).map (bfScoreRow d)).map (bfDetailsRow d)).map (bfAssetRow d)))

theorem gridRows_filter_key (df : List RowIn) (c : ℕ × ℤ) :
    (gridRows df).filter (fun r => decide (keyO r = c)) =
      if c ∈ gridOf (survive df) then cellProcessed (survive df) c else [] := by
  unfold gridRows cellProcessed backfillScore backfillDetails backfillAsset
    leftMerge
  have hproj : ∀ (l : List RowFull),
      (project l).filter (fun r => decide (keyO r = c)) =
        project (l.filter (fun fr => decide (keyF fr = c))) := by
    intro l
    unfold project
    rw [List.filter_map]
    congr 1
  rw [hproj]
  unfold dropOld
  rw [List.filter_comm]
  rw [filter_key_map_pres (keyF_bfAssetRow _), filter_key_map_pres (keyF_bfDetailsRow _),
    filter_key_map_pres (keyF_bfScoreRow _)]
  rw [filter_key_flatMap _ _ (gridOf_nodup _) (fun c' _ => cellExpand_key _ c') c]
  by_cases hc : c ∈ gridOf (survive df)
  · rw [if_pos hc, if_pos hc]
  · rw [if_neg hc, if_neg hc]
    simp [project]

theorem mem_minersOf {d : List RowIn} {r : RowIn} (hr : r ∈ d) :
    r.miner_id ∈ minersOf d :=
  List.mem_dedup.mpr (List.mem_map.mpr ⟨r, hr, rfl⟩)

theorem mem_sortedTimes {d : List RowIn} {r : RowIn} (hr : r ∈ d) :
    r.scored_time ∈ sortedTimes d :=
  ((sortByB_perm _ _).mem_iff).mpr (List.mem_dedup.mpr (List.mem_map.mpr ⟨r, hr, rfl⟩))

theorem minerFirst_le_of_mem {d : List RowIn} {r : RowIn} (hr : r ∈ d)
    {p : ℕ} (hp : r.miner_id = p) : minerFirst d p ≤ r.scored_time := by
  apply min?_le_of_mem
  exact List.mem_map.mpr ⟨r, List.mem_filter.mpr ⟨hr, by simp [hp]⟩, rfl⟩

theorem no_match_of_lt_minerFirst {d : List RowIn} {p : ℕ} {t : ℤ}
    (ht : t < minerFirst d p) :
    d.filter (fun r => decide (r.miner_id = p ∧ r.scored_time = t)) = [] := by
  apply List.filter_eq_nil_iff.mpr
  intro r hr
  simp only [decide_eq_true_eq]
  rintro ⟨hm, htt⟩
  have := minerFirst_le_of_mem hr hm
  omega

theorem worstMap_eq_of_detailsMap {d : List RowIn} {t : ℤ} {sd : ScoreDetail}
    (h : detailsMap d t = some sd) :
    worstMap d t = some (sd.percentile90 - sd.lowest_score) := by
  unfold detailsMap at h
  unfold worstMap
  cases hrep : rep d t with
  | none => rw [hrep] at h; cases h
  | some r0 =>
    rw [hrep] at h
    rw [Option.some_bind] at h
    rw [Option.some_bind, h]
    rfl

/-- **C2**.  With `T0` the minimum scored time of the surviving batch, a
participant `p` first seen at `T1 > T0` has, at every batch time `t < T1`
whose representative record carries a non-null `score_details_v3` with
`percentile90 - lowest_score ≠ 0`, exactly one output grid cell at `(p, t)`,
and its raw score is `some (percentile90 - lowest_score)` — non-null and
non-zero. -/
theorem c2_new_joiner_backfill (df : List RowIn) (p : ℕ) (t : ℤ)
    (sd : ScoreDetail)
    (hp : p ∈ minersOf (survive df))
    (hnew : globalMin (survive df) < minerFirst (survive df) p)
    (ht : t ∈ sortedTimes (survive df))
    (htlt : t < minerFirst (survive df) p)
    (hrep : detailsMap (survive df) t = some sd)
    (hnz : sd.percentile90 - sd.lowest_score ≠ 0) :
    (prepare_df_for_moving_average df).filter
        (fun r => decide (keyO r = (p, t))) =
      [⟨t, p, some (sd.percentile90 - sd.lowest_score), some sd,
        assetMap (survive df) t⟩] ∧
    sd.percentile90 - sd.lowest_score ≠ 0 := by
  refine ⟨?_, hnz⟩
  have hworst := worstMap_eq_of_detailsMap hrep
  have hne : minerFirst (survive df) p ≠ globalMin (survive df) := ne_of_gt hnew
  have hcell : cellExpand (survive df) (p, t) =
      [⟨p, t, none, none, none, minerFirst (survive df) p⟩] := by
    unfold cellExpand
    rw [no_match_of_lt_minerFirst htlt]
  have hkey := gridRows_filter_key df (p, t)
  have hmem : (p, t) ∈ gridOf (survive df) := by
    unfold gridOf
    exact List.mem_product.mpr ⟨hp, ht⟩
  rw [if_pos hmem] at hkey
  have hproc : cellProcessed (survive df) (p, t) =
      [⟨t, p, some (sd.percentile90 - sd.lowest_score), some sd,
        assetMap (survive df) t⟩] := by
    unfold cellProcessed
    rw [hcell]
    simp [bfScoreRow, bfDetailsRow, bfAssetRow, dropOld, project, hnew, hworst,
      hrep, hne, List.filter]
  have hperm : ((prepare_df_for_moving_average df).filter
      (fun r => decide (keyO r = (p, t)))).Perm
      ((gridRows df).filter (fun r => decide (keyO r = (p, t)))) :=
    (sortByB_perm rowLe (gridRows df)).filter _
  rw [hkey, hproc] at hperm
  exact List.perm_singleton.mp hperm

def batchC2 : List RowIn :=
  [⟨1, 100, 0, some (1/2), some ⟨2, 1⟩, some "BTC"⟩,
   ⟨2, 200, 0, some (3/10), some ⟨3, 1⟩, some "BTC"⟩]

/-- Witness for C2 at a two-row batch where miner 2 first appears at time
200 while the batch starts at time 100. -/
theorem c2_witness :
    (2 ∈ minersOf (survive batchC2)) ∧
    (globalMin (survive batchC2) < minerFirst (survive batchC2) 2) ∧
    ((100:ℤ) ∈ sortedTimes (survive batchC2)) ∧
    ((100:ℤ) < minerFirst (survive batchC2) 2) ∧
    (detailsMap (survive batchC2) 100 = some ⟨2, 1⟩) ∧
    ((2:ℚ) - 1 ≠ 0) ∧
    ((prepare_df_for_moving_average batchC2).filter
        (fun r => decide (keyO r = (2, 100))) =
      [⟨100, 2, some ((2:ℚ) - 1), some ⟨2, 1⟩, assetMap (survive batchC2) 100⟩] ∧
      (2:ℚ) - 1 ≠ 0) :=
  ⟨by decide, by decide, by decide, by decide, by decide, by norm_num,
    c2_new_joiner_backfill batchC2 2 100 ⟨2, 1⟩ (by decide) (by decide)
      (by decide) (by decide) (by decide) (by norm_num)⟩


theorem maps_none_of_detailsMap_none {d : List RowIn} {t : ℤ}
    (h : detailsMap d t = none) :
    worstMap d t = none ∧ assetMap d t = none := by
  unfold detailsMap at h
  cases hrep : rep d t with
  | none => constructor <;> simp [worstMap, assetMap, hrep]
  | some r0 =>
    rw [hrep, Option.some_bind] at h
    constructor <;> simp [worstMap, assetMap, hrep, h]

def batchC6 : List RowIn :=
  [⟨1, 100, 0, some (1/2), some ⟨2, 1⟩, some "BTC"⟩,
   ⟨1, 300, 0, some (3/5), some ⟨3, 1⟩, some "BTC"⟩,
   ⟨3, 200, 0, some (7/10), none, some "ETH"⟩,
   ⟨4, 300, 0, some (4/5), some ⟨4, 1⟩, some "ETH"⟩]

/-- **C6** counterexample.  In `batchC6`, miner 4 first appears at time 300
(so it is new relative to the batch minimum 100) and has no record at time
200, whose representative record (miner 3's) has a null `score_details_v3`.
The claim says this cell is dropped; in fact it is kept in the output grid
as a row with null score, null detail and null asset. -/
theorem c6_counterexample :
    (prepare_df_for_moving_average batchC6).filter
        (fun r => decide (keyO r = (4, 200))) =
      [⟨200, 4, none, none, none⟩] := by decide

/-- **C6** (amended).  An established participant (first seen at the global
minimum time) with no real observation at a batch time `t` is absent from
the output grid at `t`; but a new participant's cell at a time whose
representative `score_details_v3` is null is NOT dropped: it is kept as a
single output row with null score, null detail and null asset. -/
theorem c6_missing_cells_amended (df : List RowIn) (p q : ℕ) (t u : ℤ)
    (hpm : p ∈ minersOf (survive df))
    (hold : minerFirst (survive df) p = globalMin (survive df))
    (ht : t ∈ sortedTimes (survive df))
    (hnomatch : (survive df).filter
      (fun r => decide (r.miner_id = p ∧ r.scored_time = t)) = [])
    (hqm : q ∈ minersOf (survive df))
    (hqnew : globalMin (survive df) < minerFirst (survive df) q)
    (hu : u ∈ sortedTimes (survive df))
    (hnomatch2 : (survive df).filter
      (fun r => decide (r.miner_id = q ∧ r.scored_time = u)) = [])
    (hdet : detailsMap (survive df) u = none) :
    (prepare_df_for_moving_average df).filter
        (fun r => decide (keyO r = (p, t))) = [] ∧
    (prepare_df_for_moving_average df).filter
        (fun r => decide (keyO r = (q, u))) = [⟨u, q, none, none, none⟩] := by
  obtain ⟨hworst, hasset⟩ := maps_none_of_detailsMap_none hdet
  constructor
  · have hkey := gridRows_filter_key df (p, t)
    have hmem : (p, t) ∈ gridOf (survive df) := by
      unfold gridOf
      exact List.mem_product.mpr ⟨hpm, ht⟩
    rw [if_pos hmem] at hkey
    have hcell : cellExpand (survive df) (p, t) =
        [⟨p, t, none, none, none, minerFirst (survive df) p⟩] := by
      unfold cellExpand
      rw [hnomatch]
    have hproc : cellProcessed (survive df) (p, t) = [] := by
      unfold cellProcessed
      rw [hcell]
      simp [bfScoreRow, bfDetailsRow, bfAssetRow, dropOld, project, hold,
        List.filter]
    have hperm : ((prepare_df_for_moving_average df).filter
        (fun r => decide (keyO r = (p, t)))).Perm
        ((gridRows df).filter (fun r => decide (keyO r = (p, t)))) :=
      (sortByB_perm rowLe (gridRows df)).filter _
    rw [hkey, hproc] at hperm
    exact hperm.eq_nil
  · have hkey := gridRows_filter_key df (q, u)
    have hmem : (q, u) ∈ gridOf (survive df) := by
      unfold gridOf
      exact List.mem_product.mpr ⟨hqm, hu⟩
    rw [if_pos hmem] at hkey
    have hne : minerFirst (survive df) q ≠ globalMin (survive df) :=
      ne_of_gt hqnew
    have hcell : cellExpand (survive df) (q, u) =
        [⟨q, u, none, none, none, minerFirst (survive df) q⟩] := by
      unfold cellExpand
      rw [hnomatch2]
    have hproc : cellProcessed (survive df) (q, u) =
        [⟨u, q, none, none, none⟩] := by
      unfold cellProcessed
      rw [hcell]
      simp [bfScoreRow, bfDetailsRow, bfAssetRow, dropOld, project, hqnew,
        hworst, hasset, hdet, hne, List.filter]
    have hperm : ((prepare_df_for_moving_average df).filter
        (fun r => decide (keyO r = (q, u)))).Perm
        ((gridRows df).filter (fun r => decide (keyO r = (q, u)))) :=
      (sortByB_perm rowLe (gridRows df)).filter _
    rw [hkey, hproc] at hperm
    exact List.perm_singleton.mp hperm

/-- Witness for C6 on `batchC6`: the established part at cell `(1, 200)`
and the new-participant part at cell `(4, 200)`. -/
theorem c6_witness :
    (1 ∈ minersOf (survive batchC6)) ∧
    (minerFirst (survive batchC6) 1 = globalMin (survive batchC6)) ∧
    ((200:ℤ) ∈ sortedTimes (survive batchC6)) ∧
    ((survive batchC6).filter
      (fun r => decide (r.miner_id = 1 ∧ r.scored_time = 200)) = []) ∧
    (4 ∈ minersOf (survive batchC6)) ∧
    (globalMin (survive batchC6) < minerFirst (survive batchC6) 4) ∧
    ((200:ℤ) ∈ sortedTimes (survive batchC6)) ∧
    ((survive batchC6).filter
      (fun r => decide (r.miner_id = 4 ∧ r.scored_time = 200)) = []) ∧
    (detailsMap (survive batchC6) 200 = none) ∧
    ((prepare_df_for_moving_average batchC6).filter
        (fun r => decide (keyO r = (1, 200))) = [] ∧
    (prepare_df_for_moving_average batchC6).filter
        (fun r => decide (keyO r = (4, 200))) = [⟨200, 4, none, none, none⟩]) :=
  ⟨by decide, by decide, by decide, by decide, by decide, by decide, by decide,
    by decide, by decide,
    c6_missing_cells_amended batchC6 1 4 200 200 (by decide) (by decide)
      (by decide) (by decide) (by decide) (by decide) (by decide) (by decide)
      (by decide)⟩

def batchC7 : List RowIn :=
  [⟨1, 100, 0, some 1, some ⟨2, 1⟩, some "BTC"⟩,
   ⟨1, 200, 0, some 1, some ⟨3, 1⟩, some "BTC"⟩,
   ⟨2, 200, 0, some 2, some ⟨5, 1⟩, some "ETH"⟩]

/-- **C7** counterexample.  In `batchC7`, miner 2 is new (first seen at
time 200 > 100) and has a real observed record at `(2, 200)` with asset
`"ETH"` and detail `⟨5, 1⟩`; the representative record at time 200 is miner
1's, with asset `"BTC"` and detail `⟨3, 1⟩`.  The output row at `(2, 200)`
keeps the observed raw score but its `score_details_v3` and `asset` are
overwritten with the representative's values, contradicting the claim that
cells with a real observation keep their own detail and asset. -/
theorem c7_counterexample :
    (⟨2, 200, 0, some 2, some ⟨5, 1⟩, some "ETH"⟩ : RowIn) ∈ batchC7 ∧
    (prepare_df_for_moving_average batchC7).filter
        (fun r => decide (keyO r = (2, 200))) =
      [⟨200, 2, some 2, some ⟨3, 1⟩, some "BTC"⟩] ∧
    (some "BTC" : Option String) ≠ some "ETH" ∧
    (some (⟨3, 1⟩ : ScoreDetail) : Option ScoreDetail) ≠ some ⟨5, 1⟩ := by
  refine ⟨by decide, by decide, by decide, by decide⟩

/-- **C7** (amended).  For a new participant's cell carrying exactly one
real observed record with a present score: the output row keeps the
observed raw score, but its `score_details_v3` and `asset` are overwritten
with the representative mapping's values at that time — the overwrite
applies to every new-participant cell, not only to cells with a missing
score. -/
theorem c7_overwrite_amended (df : List RowIn) (p : ℕ) (t : ℤ) (r : RowIn)
    (s : ℚ)
    (hnew : globalMin (survive df) < minerFirst (survive df) p)
    (hmatch : (survive df).filter
      (fun x => decide (x.miner_id = p ∧ x.scored_time = t)) = [r])
    (hs : r.prompt_score_v3 = some s) :
    (prepare_df_for_moving_average df).filter
        (fun x => decide (keyO x = (p, t))) =
      [⟨t, p, some s, detailsMap (survive df) t, assetMap (survive df) t⟩] := by
  have hrmem : r ∈ (survive df).filter
      (fun x => decide (x.miner_id = p ∧ x.scored_time = t)) := by
    rw [hmatch]
    exact List.mem_singleton.mpr rfl
  have hrd := List.mem_filter.mp hrmem
  have hkeys : r.miner_id = p ∧ r.scored_time = t := by
    have := hrd.2
    simpa using this
  have hpm : p ∈ minersOf (survive df) := hkeys.1 ▸ mem_minersOf hrd.1
  have ht : t ∈ sortedTimes (survive df) := hkeys.2 ▸ mem_sortedTimes hrd.1
  have hne : minerFirst (survive df) p ≠ globalMin (survive df) := ne_of_gt hnew
  have hkey := gridRows_filter_key df (p, t)
  have hmem : (p, t) ∈ gridOf (survive df) := by
    unfold gridOf
    exact List.mem_product.mpr ⟨hpm, ht⟩
  rw [if_pos hmem] at hkey
  have hcell : cellExpand (survive df) (p, t) =
      [⟨p, t, r.prompt_score_v3, r.score_details_v3, r.asset,
        minerFirst (survive df) p⟩] := by
    unfold cellExpand
    rw [hmatch]
    rfl
  have hproc : cellProcessed (survive df) (p, t) =
      [⟨t, p, some s, detailsMap (survive df) t, assetMap (survive df) t⟩] := by
    unfold cellProcessed
    rw [hcell]
    simp [bfScoreRow, bfDetailsRow, bfAssetRow, dropOld, project, hnew, hne,
      hs, List.filter]
  have hperm : ((prepare_df_for_moving_average df).filter
      (fun x => decide (keyO x = (p, t)))).Perm
      ((gridRows df).filter (fun x => decide (keyO x = (p, t)))) :=
    (sortByB_perm rowLe (gridRows df)).filter _
  rw [hkey, hproc] at hperm
  exact List.perm_singleton.mp hperm

/-- Witness for C7 at the cell `(2, 200)` of `batchC7`. -/
theorem c7_witness :
    (globalMin (survive batchC7) < minerFirst (survive batchC7) 2) ∧
    ((survive batchC7).filter
      (fun x => decide (x.miner_id = 2 ∧ x.scored_time = 200)) =
      [⟨2, 200, 0, some 2, some ⟨5, 1⟩, some "ETH"⟩]) ∧
    ((⟨2, 200, 0, some 2, some ⟨5, 1⟩, some "ETH"⟩ : RowIn).prompt_score_v3 =
      some 2) ∧
    ((prepare_df_for_moving_average batchC7).filter
        (fun x => decide (keyO x = (2, 200))) =
      [⟨200, 2, some 2, detailsMap (survive batchC7) 200,
        assetMap (survive batchC7) 200⟩]) :=
  ⟨by decide, by decide, by decide,
    c7_overwrite_amended batchC7 2 200
      ⟨2, 200, 0, some 2, some ⟨5, 1⟩, some "ETH"⟩ 2 (by decide) (by decide)
      (by decide)⟩

theorem countAsset_perm {l₁ l₂ : List (ℚ × String)} (h : l₁.Perm l₂)
    (a : String) : countAsset a l₁ = countAsset a l₂ := by
  unfold countAsset
  exact (h.filter _).length_eq

theorem sumCoefOf_perm {l₁ l₂ : List (ℚ × String)} (h : l₁.Perm l₂) :
    sumCoefOf l₁ = sumCoefOf l₂ := by
  unfold sumCoefOf
  rw [countAsset_perm h "BTC", countAsset_perm h "ETH", countAsset_perm h "XAU",
    countAsset_perm h "SOL"]

theorem apply_sum_perm {l₁ l₂ : List (ℚ × String)} (h : l₁.Perm l₂) :
    (apply_per_asset_coefficients l₁).sum = (apply_per_asset_coefficients l₂).sum := by
  rw [apply_per_asset_coefficients_eq, apply_per_asset_coefficients_eq,
    sumCoefOf_perm h]
  exact (h.map _).sum_eq

theorem rollingOf_eq (df : List RowOut) (w T : ℤ) (m : ℕ) :
    rollingOf df w T m =
      if validRows (windowRows w T (sortTime (groupRows df m))) = [] then none
      else some ((apply_per_asset_coefficients
        (validRows (windowRows w T (sortTime (groupRows df m))))).sum) := by
  unfold rollingOf
  rcases hv : validRows (windowRows w T (sortTime (groupRows df m))) with _ | ⟨v, vs⟩
  · rfl
  · rw [if_neg (by simp)]
    rcases ha : apply_per_asset_coefficients (v :: vs) with _ | ⟨s, ss⟩
    · have := apply_length (v :: vs)
      rw [ha] at this
      simp at this
    · rfl

/-- The rolling average as the claim describes it: select the participant's
rows with `scored_time` in the half-open-left interval
`(scored_time - window_days, scored_time]`, drop the rows with a missing
score (or asset), and sum — not average — the normalized scores; if there
is no valid row, the result is the positive-infinity sentinel (`none`). -/
def rollingSpec (df : List RowOut) (w T : ℤ) (m : ℕ) : Option ℚ :=
  let valid := validRows (df.filter fun r =>
    decide (r.miner_id = m ∧ T - w * 86400 < r.scored_time ∧ r.scored_time ≤ T))
  if valid = [] then none
  else some ((apply_per_asset_coefficients valid).sum)

theorem rollingOf_eq_rollingSpec (df : List RowOut) (w T : ℤ) (m : ℕ) :
    rollingOf df w T m = rollingSpec df w T m := by
  rw [rollingOf_eq]
  unfold rollingSpec
  have hcomb : windowRows w T (groupRows df m) = df.filter fun r =>
      decide (r.miner_id = m ∧ T - w * 86400 < r.scored_time ∧ r.scored_time ≤ T) := by
    unfold windowRows groupRows
    rw [List.filter_filter]
    apply List.filter_congr
    intro r _
    by_cases h1 : r.miner_id = m <;> by_cases h2 : T - w * 86400 < r.scored_time
      <;> by_cases h3 : r.scored_time ≤ T <;> simp [h1, h2, h3]
  have hperm : (validRows (windowRows w T (sortTime (groupRows df m)))).Perm
      (validRows (df.filter fun r =>
        decide (r.miner_id = m ∧ T - w * 86400 < r.scored_time ∧ r.scored_time ≤ T))) := by
    rw [← hcomb]
    unfold validRows windowRows
    exact ((sortByB_perm _ (groupRows df m)).filter _).filterMap _
  by_cases hnil : validRows (windowRows w T (sortTime (groupRows df m))) = []
  · rw [if_pos hnil]
    rw [hnil] at hperm
    rw [if_pos (hperm.symm.eq_nil)]
  · rw [if_neg hnil, if_neg (fun h => hnil (by rw [h] at hperm; exact hperm.eq_nil))]
    rw [apply_sum_perm hperm]

/-- **C8**.  For each participant of the input grid, the rolling-average
table contains the pair `(m, rollingSpec df w T m)`: the participant's rows
with `scored_time` in the half-open-left window `(T - w days, T]` are
selected, rows with a missing score are dropped, the remaining normalized
scores are summed (not averaged), and a participant with zero valid rows in
the window gets the positive-infinity sentinel. -/
theorem c8_window_aggregation (df : List RowOut) (w T : ℤ) (m : ℕ)
    (hm : m ∈ minersSorted df) :
    (m, rollingSpec df w T m) ∈ rollingAvgData df w T := by
  rw [← rollingOf_eq_rollingSpec]
  exact List.mem_map.mpr ⟨m, hm, rfl⟩

/-- Witness for C8 on the scenario batch, participant 1. -/
theorem c8_witness :
    (1 ∈ minersSorted dfScenario) ∧
    ((1, rollingSpec dfScenario 10 200 1) ∈ rollingAvgData dfScenario 10 200) :=
  ⟨by decide, c8_window_aggregation dfScenario 10 200 1 (by decide)⟩

theorem scanl_mul_getElem (l : List ℝ) (a : ℝ) (k : ℕ) (hk : k ≤ l.length) :
    (l.scanl (· * ·) a)[k]? = some (a * (l.take k).prod) := by
  induction l generalizing a k with
  | nil =>
    have hk0 : k = 0 := Nat.le_zero.mp hk
    subst hk0
    simp [List.scanl_nil]
  | cons x xs ih =>
    cases k with
    | zero => simp [List.scanl_cons]
    | succ k =>
      rw [List.scanl_cons, List.singleton_append, List.getElem?_cons_succ,
        ih (a * x) k (by simpa using hk), List.take_succ_cons, List.prod_cons]
      rw [mul_assoc]

/-- **C9**.  `simulate_crypto_price_paths` returns `num_simulations` paths;
each path has `⌊time_length / time_increment⌋ + 1` points, starts at exactly
`current_price`, and its value at step `k` is
`current_price * Π_{i<k} (1 + r_i)` over that path's own drawn returns — a
cumulative product. -/
theorem c9_path_simulation (cp : ℝ) (ti tl ns : ℕ) (sg : ℝ)
    (draws : ℕ → ℕ → ℝ) (hcp : 0 < cp) (hti : 0 < ti) (htl : 0 < tl)
    (hsg : 0 < sg) (hns : 1 ≤ ns) :
    (simulate_crypto_price_paths cp ti tl ns sg draws).length = ns ∧
    ∀ j, j < ns →
      (simulate_crypto_price_paths cp ti tl ns sg draws)[j]? =
        some (simulate_single_price_path cp ti tl sg (draws j)) ∧
      (simulate_single_price_path cp ti tl sg (draws j)).length = tl / ti + 1 ∧
      (simulate_single_price_path cp ti tl sg (draws j))[0]? = some cp ∧
      ∀ k, k ≤ tl / ti →
        (simulate_single_price_path cp ti tl sg (draws j))[k]? =
          some (cp * (((List.range k).map fun i => 1 + draws j i)).prod) := by
  constructor
  · simp [simulate_crypto_price_paths]
  · intro j hj
    have hgen : ∀ k, k ≤ tl / ti →
        (simulate_single_price_path cp ti tl sg (draws j))[k]? =
          some (cp * (((List.range k).map fun i => 1 + draws j i)).prod) := by
      intro k hk
      unfold simulate_single_price_path
      rw [List.getElem?_map, scanl_mul_getElem _ _ _ (by simpa using hk),
        Option.map_some']
      rw [one_mul]
      rw [← List.map_take, ← List.map_take, List.take_range,
        Nat.min_eq_left hk, List.map_map]
      rfl
    refine ⟨?_, ?_, ?_, hgen⟩
    · unfold simulate_crypto_price_paths
      rw [List.getElem?_map, List.getElem?_range hj, Option.map_some']
    · simp [simulate_single_price_path, List.length_scanl]
    · have h0 := hgen 0 (Nat.zero_le _)
      simpa using h0

/-- Witness for C9 at `simulate(100.0, 300, 86400, sigma = 2/100,
num_paths = 1000)` with the zero draw family: a 1000 × (86400/300 + 1 = 289)
matrix whose first column is exactly 100. -/
theorem c9_witness :
    (0:ℝ) < 100 ∧ 0 < 300 ∧ 0 < 86400 ∧ (0:ℝ) < 2/100 ∧ 1 ≤ 1000 ∧
    86400 / 300 + 1 = 289 ∧
    ((simulate_crypto_price_paths 100 300 86400 1000 (2/100)
        fun _ _ => 0).length = 1000 ∧
      ∀ j, j < 1000 →
        (simulate_crypto_price_paths 100 300 86400 1000 (2/100)
          fun _ _ => 0)[j]? =
          some (simulate_single_price_path 100 300 86400 (2/100) fun _ => 0) ∧
        (simulate_single_price_path 100 300 86400 (2/100)
          fun _ => 0).length = 86400 / 300 + 1 ∧
        (simulate_single_price_path 100 300 86400 (2/100)
          fun _ => 0)[0]? = some 100 ∧
        ∀ k, k ≤ 86400 / 300 →
          (simulate_single_price_path 100 300 86400 (2/100) fun _ => 0)[k]? =
            some (100 * (((List.range k).map fun _ => 1 + (0:ℝ))).prod)) :=
  ⟨by norm_num, by norm_num, by norm_num, by norm_num, by norm_num, by norm_num,
    c9_path_simulation 100 300 86400 1000 (2/100) (fun _ _ => 0) (by norm_num)
      (by norm_num) (by norm_num) (by norm_num) (by norm_num)⟩

/-! ## Reference-and-heap model for the frame claim

Pandas dataframes are heap objects passed by reference.  To settle whether
`prepare_df_for_moving_average` and `compute_smoothed_score` mutate the
frame their caller passed in, the two functions are traced once more as
state transformers over an explicit heap of dataframe values: every pandas
expression that creates a new object allocates a fresh reference, and every
in-place pandas operation (`df[col] = ...`, `df.loc[mask, col] = ...`,
`df[col] *= ...`, `df[col] /= ...`) writes to the reference it targets.
The values written reuse the pure definitions above. -/

/-- A heap cell: one pandas object of any of the shapes the two functions
create. -/
inductive DfU where
  | dIn : List RowIn → DfU
  | dMF : List (ℕ × ℤ) → DfU
  | dMiners : List ℕ → DfU
  | dGrid : List (ℕ × ℤ) → DfU
  | dFull : List RowFull → DfU
  | dOut : List RowOut → DfU
  | dPairs : List (ℚ × String) → DfU
  | dScores : List ℚ → DfU
deriving DecidableEq

/-- Read a reference as an input dataframe. -/
def getInU : Option DfU → List RowIn
  | some (DfU.dIn v) => v
  | _ => []

/-- Read a reference as a grid dataframe. -/
def getOutU : Option DfU → List RowOut
  | some (DfU.dOut v) => v
  | _ => []

/-- Read a reference as a two-column score/asset frame. -/
def getPairsU : Option DfU → List (ℚ × String)
  | some (DfU.dPairs v) => v
  | _ => []

/-- Write the value `v` at reference `r`. -/
def hset (h : ℕ → Option DfU) (r : ℕ) (v : DfU) : ℕ → Option DfU :=
  fun x => if x = r then some v else h x

/-- The heap trace of `prepare_df_for_moving_average` on the dataframe at
reference `input`: returns the reference of the result frame and the final
state `(next fresh reference, heap)`. -/
def prepare_df_st (input : ℕ) (s : ℕ × (ℕ → Option DfU)) :
    ℕ × (ℕ × (ℕ → Option DfU)) :=
  let n := s.1
  let v := getInU (s.2 input)
  let d := survive v
  -- `df = df.copy()` — a fresh object; the caller's frame is never written
  let h1 := hset s.2 n (DfU.dIn v)
  -- the two `to_datetime` column assignments write the copy in place
  let h2 := hset h1 n (DfU.dIn v)
  let h3 := hset h2 n (DfU.dIn v)
  -- `df = df.loc[~mask_exclude]` — a new object, rebinding `df`
  let h4 := hset h3 (n+1) (DfU.dIn d)
  -- `miner_first = df.groupby(...).min().rename(...).reset_index()`
  let h5 := hset h4 (n+2) (DfU.dMF ((minersOf d).map fun p => (p, minerFirst d p)))
  -- `miners = df[["miner_id"]].drop_duplicates()`
  let h6 := hset h5 (n+3) (DfU.dMiners (minersOf d))
  -- the `assign/merge` cartesian product
  let h7 := hset h6 (n+4) (DfU.dGrid (gridOf d))
  -- the two left merges building `full`
  let h8 := hset h7 (n+5) (DfU.dFull (leftMerge d))
  -- `full.loc[is_new, "prompt_score_v3"] = ...` — in place on `full`
  let h9 := hset h8 (n+5) (DfU.dFull (backfillScore d (leftMerge d)))
  -- `full.loc[is_new, "score_details_v3"] = ...`
  let h10 := hset h9 (n+5)
    (DfU.dFull (backfillDetails d (backfillScore d (leftMerge d))))
  -- `full.loc[is_new, "asset"] = ...`
  let h11 := hset h10 (n+5)
    (DfU.dFull (backfillAsset d (backfillDetails d (backfillScore d (leftMerge d)))))
  -- `out = full.loc[~mask_drop, cols]` — a new object
  let h12 := hset h11 (n+6) (DfU.dOut (gridRows v))
  -- `out["miner_id"] = out["miner_id"].astype(int)` — in place on `out`
  let h13 := hset h12 (n+6) (DfU.dOut (gridRows v))
  -- `out = out.sort_values(...).reset_index(drop=True)` — a new object
  let h14 := hset h13 (n+7) (DfU.dOut (prepare_df_for_moving_average v))
  (n+7, (n+8, h14))

/-- The heap trace of `apply_per_asset_coefficients` on the frame at
reference `r`: four in-place `*=` writes (one per table asset) and one
in-place `/=` write, all on `r`; no allocation. -/
def apply_st (r : ℕ) (s : ℕ × (ℕ → Option DfU)) : ℕ × (ℕ → Option DfU) :=
  let v := getPairsU (s.2 r)
  let v1 := multAsset "BTC" 1.0 v
  let h1 := hset s.2 r (DfU.dPairs v1)
  let v2 := multAsset "ETH" 0.6210893136676585 v1
  let h2 := hset h1 r (DfU.dPairs v2)
  let v3 := multAsset "XAU" 1.4550630831254674 v2
  let h3 := hset h2 r (DfU.dPairs v3)
  let v4 := multAsset "SOL" 0.5021491038021751 v3
  let h4 := hset h3 r (DfU.dPairs v4)
  let h5 := hset h4 r (DfU.dPairs (v4.map fun p => (p.1 / sumCoefOf v, p.2)))
  (s.1, h5)

/-- The heap trace of one iteration of the per-miner loop of
`compute_smoothed_score`. -/
def loopStep (v : List RowOut) (w T : ℤ) (m : ℕ)
    (s : ℕ × (ℕ → Option DfU)) : ℕ × (ℕ → Option DfU) :=
  let n := s.1
  let g := groupRows v m
  -- the groupby iterator hands out a fresh frame per group
  let h1 := hset s.2 n (DfU.dOut g)
  -- `group_df = group_df.copy()`
  let h2 := hset h1 (n+1) (DfU.dOut g)
  -- `group_df["scored_time"] = pd.to_datetime(...)` — in place on the copy
  let h3 := hset h2 (n+1) (DfU.dOut g)
  -- `group_df = group_df.sort_values("scored_time")` — a new object
  let h4 := hset h3 (n+2) (DfU.dOut (sortTime g))
  -- `window_df = group_df.loc[mask]` — a new object
  let h5 := hset h4 (n+3) (DfU.dOut (windowRows w T (sortTime g)))
  -- `valid_scores = window_df[[...]].dropna()` — a new object
  let h6 := hset h5 (n+4) (DfU.dPairs (validRows (windowRows w T (sortTime g))))
  -- `apply_per_asset_coefficients(valid_scores)` mutates `valid_scores`
  let s2 := apply_st (n+4) (n+5, h6)
  -- its returned score column is rebound to `window_df`
  let h7 := hset s2.2 s2.1
    (DfU.dScores (apply_per_asset_coefficients (validRows (windowRows w T (sortTime g)))))
  (s2.1 + 1, h7)

/-- The heap trace of `compute_smoothed_score` on the grid at reference
`input`: the per-miner loop in ascending miner order (the remaining steps
build plain lists and dicts, not dataframes, and touch no dataframe
reference). -/
def compute_smoothed_score_st (input : ℕ) (w T : ℤ)
    (s : ℕ × (ℕ → Option DfU)) : ℕ × (ℕ → Option DfU) :=
  let v := getOutU (s.2 input)
  (minersSorted v).foldl (fun st m => loopStep v w T m st) s

theorem hset_preserve {h : ℕ → Option DfU} {r : ℕ} {v : DfU} {x : ℕ}
    (hx : x ≠ r) : hset h r v x = h x := if_neg hx

theorem prepare_df_st_preserves (input : ℕ) (s : ℕ × (ℕ → Option DfU))
    (r : ℕ) (hr : r < s.1) : (prepare_df_st input s).2.2 r = s.2 r := by
  simp only [prepare_df_st, hset]
  repeat rw [if_neg (by omega)]

theorem apply_st_preserves (rr : ℕ) (s : ℕ × (ℕ → Option DfU)) (x : ℕ)
    (hx : x ≠ rr) : (apply_st rr s).2 x = s.2 x ∧ (apply_st rr s).1 = s.1 := by
  constructor
  · simp only [apply_st, hset]
    repeat rw [if_neg hx]
  · rfl

theorem loopStep_preserves (v : List RowOut) (w T : ℤ) (m : ℕ)
    (s : ℕ × (ℕ → Option DfU)) (x : ℕ) (hx : x < s.1) :
    (loopStep v w T m s).2 x = s.2 x ∧ s.1 ≤ (loopStep v w T m s).1 := by
  constructor
  · show hset (apply_st (s.1+4) (s.1+5, _)).2 (apply_st (s.1+4) (s.1+5, _)).1 _ x = s.2 x
    rw [hset_preserve (by
      rw [(apply_st_preserves (s.1+4) _ x (by omega)).2]
      omega)]
    rw [(apply_st_preserves (s.1+4) _ x (by omega)).1]
    simp only [hset]
    repeat rw [if_neg (by omega)]
  · show s.1 ≤ (apply_st (s.1+4) (s.1+5, _)).1 + 1
    rw [(apply_st_preserves (s.1+4) _ 0 (by omega)).2]
    omega

theorem foldl_loopStep_preserves (v : List RowOut) (w T : ℤ) (ms : List ℕ) :
    ∀ (s : ℕ × (ℕ → Option DfU)) (x : ℕ), x < s.1 →
      (ms.foldl (fun st m => loopStep v w T m st) s).2 x = s.2 x ∧
      s.1 ≤ (ms.foldl (fun st m => loopStep v w T m st) s).1 := by
  induction ms with
  | nil => exact fun s x _ => ⟨rfl, le_refl _⟩
  | cons m ms ih =>
    intro s x hx
    obtain ⟨hkeep, hle⟩ := loopStep_preserves v w T m s x hx
    obtain ⟨hkeep2, hle2⟩ := ih (loopStep v w T m s) x (lt_of_lt_of_le hx hle)
    exact ⟨hkeep2.trans hkeep, le_trans hle hle2⟩

/-- **C10**.  Neither function mutates the dataframe its caller passed in:
in the heap traces of `prepare_df_for_moving_average` and of
`compute_smoothed_score`, every write targets a reference allocated after
entry, so every pre-existing reference — in particular the caller's input
frame — holds exactly its old value when the call returns. -/
theorem c10_no_input_mutation :
    (∀ (s : ℕ × (ℕ → Option DfU)) (input r : ℕ), r < s.1 →
      (prepare_df_st input s).2.2 r = s.2 r) ∧
    (∀ (s : ℕ × (ℕ → Option DfU)) (input : ℕ) (w T : ℤ) (r : ℕ), r < s.1 →
      (compute_smoothed_score_st input w T s).2 r = s.2 r) := by
  constructor
  · exact fun s input r hr => prepare_df_st_preserves input s r hr
  · intro s input w T r hr
    exact (foldl_loopStep_preserves (getOutU (s.2 input)) w T
      (minersSorted (getOutU (s.2 input))) s r hr).1

/-- The initial heap for the C10 witness: the caller's frame for
`prepare_df_for_moving_average` lives at reference 0. -/
def heapC10a : ℕ → Option DfU :=
  fun x => if x = 0 then some (DfU.dIn batchC7) else none

/-- The initial heap for the C10 witness: the caller's grid for
`compute_smoothed_score` lives at reference 0. -/
def heapC10b : ℕ → Option DfU :=
  fun x => if x = 0 then some (DfU.dOut dfScenario) else none

/-- Witness for C10: concrete calls on one-object heaps leave the caller's
reference 0 untouched. -/
theorem c10_witness :
    (0 < (1, heapC10a).1) ∧
    (prepare_df_st 0 (1, heapC10a)).2.2 0 = heapC10a 0 ∧
    (compute_smoothed_score_st 0 10 200 (1, heapC10b)).2 0 = heapC10b 0 :=
  ⟨by norm_num,
    c10_no_input_mutation.1 (1, heapC10a) 0 0 (by norm_num),
    c10_no_input_mutation.2 (1, heapC10b) 0 10 200 0 (by norm_num)⟩
